import Mathlib

/-!
Verification of the `vecbit` bit-vector representation layer.

The development shallowly embeds the representation layer of the crate:

* the `span` cursor arithmetic of the `indices` module;
* the `BitDomain` classification of `src/domain.rs`;
* the `BitAccess` single-bit and masked element operations of `src/access.rs`;
* the `VecBit` growth, shrink, comparison and truncation operations of
  `src/vec.rs`.

Machine integers are embedded as `Nat`; a storage element of width `w` is a
`Nat` strictly below `2 ^ w`, and the Rust bitwise operators on elements
become `&&&`, `|||`, `^^^` and XOR against the all-ones value `2 ^ w - 1`.
A cursor (bit-order strategy) is embedded as a function `c : Nat → Nat`
sending a semantic in-element index to the exponent of its single-bit mask;
the two shipped strategies are `fun j => j` (LittleEndian) and
`fun j => w - 1 - j` (BigEndian).
-/

/-- Ceiling division on naturals: the least `c` with `a ≤ b * c` (for `b > 0`). -/
def ceilDiv (a b : Nat) : Nat := (a + b - 1) / b

/-- Modelled from the spec: `span` from the `indices` module (the file is
absent from the sources; only its callers in `src/domain.rs` and
`src/vec.rs` are present). Given a start index `s` in `[0, w)` and a bit
count `len`, it returns the number of elements spanned and the tail cursor:
`len = 0` gives no elements and reinterprets `s` as a tail; otherwise the
element count is the ceiling of `(s + len) / w` and the tail is
`(s + len - 1) % w + 1`. -/
def span (w s len : Nat) : Nat × Nat :=
  if len = 0 then (0, s)
  else (ceilDiv (s + len) w, (s + len - 1) % w + 1)

/-- The Rust `!mask` on an unsigned integer of width `w`: complement inside
the element width. -/
def notW (w m : Nat) : Nat := (2 ^ w - 1) ^^^ m

namespace BitAccess

/-- `BitAccess::clear_bit` of `src/access.rs`: `fetch_and` with the
complemented single-bit mask. The mask argument stands for the inlined
`C::mask(place)` of the source. -/
def clear_bit (w v m : Nat) : Nat := v &&& notW w m

/-- `BitAccess::clear_bits` of `src/access.rs`: `fetch_and` with the mask
itself. -/
def clear_bits (v m : Nat) : Nat := v &&& m

/-- `BitAccess::set_bit` of `src/access.rs`: `fetch_or` with the single-bit
mask. -/
def set_bit (v m : Nat) : Nat := v ||| m

/-- `BitAccess::set_bits` of `src/access.rs`: `fetch_or` with the mask. -/
def set_bits (v m : Nat) : Nat := v ||| m

/-- `BitAccess::invert_bit` of `src/access.rs`: `fetch_xor` with the
single-bit mask. -/
def invert_bit (v m : Nat) : Nat := v ^^^ m

/-- `BitAccess::get` of `src/access.rs`: the element ANDed with the mask,
compared against the zero element. -/
def get (v m : Nat) : Bool := v &&& m != 0

/-- `BitAccess::set` of `src/access.rs`: dispatches on the bit value to
`set_bit` or `clear_bit`. -/
def set (w v m : Nat) (b : Bool) : Nat :=
  if b then set_bit v m else clear_bit w v m

end BitAccess

/-- The six domain shapes of `src/domain.rs`. Element references of the
source become the element values they refer to. -/
inductive BitDomain where
  | Empty : BitDomain
  | Minor (head : Nat) (elt : Nat) (tail : Nat) : BitDomain
  | Major (head : Nat) (headElt : Nat) (body : List Nat) (tailElt : Nat)
      (tail : Nat) : BitDomain
  | PartialHead (head : Nat) (headElt : Nat) (rest : List Nat) : BitDomain
  | PartialTail (rest : List Nat) (tailElt : Nat) (tail : Nat) : BitDomain
  | Spanning (elts : List Nat) : BitDomain
deriving DecidableEq

/-- `BitDomain::is_minor` of `src/domain.rs`. -/
def BitDomain.is_minor : BitDomain → Bool
  | .Minor .. => true
  | _ => false

/-- `BitDomain::is_major` of `src/domain.rs`. -/
def BitDomain.is_major : BitDomain → Bool
  | .Major .. => true
  | _ => false

/-- `BitDomain::is_partial_head` of `src/domain.rs`. -/
def BitDomain.is_partial_head : BitDomain → Bool
  | .PartialHead .. => true
  | _ => false

/-- `BitDomain::is_partial_tail` of `src/domain.rs`. -/
def BitDomain.is_partial_tail : BitDomain → Bool
  | .PartialTail .. => true
  | _ => false

/-- `BitDomain::is_spanning` of `src/domain.rs`. -/
def BitDomain.is_spanning : BitDomain → Bool
  | .Spanning .. => true
  | _ => false

/-- Model convenience: tests the `Empty` variant (the source matches on the
variant directly). -/
def BitDomain.is_empty : BitDomain → Bool
  | .Empty => true
  | _ => false

/-- How many of the six variant tests hold of a classification. -/
def BitDomain.variantCount (d : BitDomain) : Nat :=
  d.is_empty.toNat + d.is_minor.toNat + d.is_major.toNat +
    d.is_partial_head.toNat + d.is_partial_tail.toNat + d.is_spanning.toNat

/-- The element span carried by a classification, in storage order: the
reconstruction of the referenced elements from the variant parts. -/
def BitDomain.elems : BitDomain → List Nat
  | .Empty => []
  | .Minor _ e _ => [e]
  | .Major _ h body t _ => h :: (body ++ [t])
  | .PartialHead _ h rest => h :: rest
  | .PartialTail rest t _ => rest ++ [t]
  | .Spanning d => d

/-- The head index carried by a classification, when the variant has one. -/
def BitDomain.headIdx : BitDomain → Option Nat
  | .Minor h _ _ => some h
  | .Major h _ _ _ _ => some h
  | .PartialHead h _ _ => some h
  | _ => none

/-- The tail index carried by a classification, when the variant has one. -/
def BitDomain.tailIdx : BitDomain → Option Nat
  | .Minor _ _ t => some t
  | .Major _ _ _ _ t => some t
  | .PartialTail _ _ t => some t
  | _ => none

/-- `From<BitPtr<T>> for BitDomain` of `src/domain.rs`. The pointer is given
by its head index, bit length, and the element values of its element-level
view (`as_access_slice`, one entry per touched element); `head()` and
`len()` read those inputs, and `h.span(len)` is the embedded `span`. The
nested conditionals translate the source match arms in order. -/
def BitDomain.ofPtr (w head len : Nat) (data : List Nat) : BitDomain :=
  if (span w head len).1 = 0 then .Empty
  else if head = 0 ∧ (span w head len).2 = w then .Spanning data
  else if (span w head len).2 = w then
    .PartialHead head (data.headD 0) data.tail
  else if head = 0 then
    .PartialTail data.dropLast (data.getLastD 0) (span w head len).2
  else if (span w head len).1 = 1 then
    .Minor head (data.headD 0) (span w head len).2
  else
    .Major head (data.headD 0) data.tail.dropLast (data.tail.getLastD 0)
      (span w head len).2

/-- The single-bit mask of a cursor strategy `c` at in-element index `j`.
Modelled from the spec: `Cursor::mask` (the `cursor` module is absent from
the sources); the strategy maps an index to a distinct single-bit mask. -/
def cursorMask (c : Nat → Nat) (j : Nat) : Nat := 2 ^ c j

/-- The `VecBit` of `src/vec.rs`, at the representation level. `buf` holds
the element values of the backing allocation (its length is the capacity in
elements), `head` the pointer head cursor, and `len` the live bit count;
the pointer element count and tail cursor are derived through `span` as the
spec prescribes. -/
structure VecBit where
  buf : List Nat
  head : Nat
  len : Nat
deriving DecidableEq

/-- The element count of the vector pointer: first component of
`span(head, len)`. -/
def VecBit.elts (w : Nat) (v : VecBit) : Nat := (span w v.head v.len).1

/-- The tail cursor of the vector pointer: second component of
`span(head, len)`. -/
def VecBit.tailCur (w : Nat) (v : VecBit) : Nat := (span w v.head v.len).2

/-- `VecBit::capacity` of `src/vec.rs`: the element capacity times the
element width. -/
def VecBit.capacity (w : Nat) (v : VecBit) : Nat := v.buf.length * w

/-- Reading the bit at logical index `i`. Modelled from the spec: the slice
indexing of the `slice` module (absent from the sources) locates bit `i` at
offset `head + i`, element `(head + i) / w`, in-element index
`(head + i) % w`, and reads it through `BitAccess::get` with the cursor
mask. -/
def VecBit.getBit (w : Nat) (c : Nat → Nat) (v : VecBit) (i : Nat) : Bool :=
  BitAccess.get (v.buf.getD ((v.head + i) / w) 0)
    (cursorMask c ((v.head + i) % w))

/-- Writing the bit at logical index `i`. Modelled from the spec: the
`SliceBit::set` called by `VecBit::push` (the `slice` module is absent from
the sources) locates the bit as `getBit` does and writes it through
`BitAccess::set` with the cursor mask. -/
def VecBit.setBitAt (w : Nat) (c : Nat → Nat) (v : VecBit) (i : Nat)
    (b : Bool) : VecBit :=
  { v with
    buf := v.buf.set ((v.head + i) / w)
      (BitAccess.set w (v.buf.getD ((v.head + i) / w) 0)
        (cursorMask c ((v.head + i) % w)) b) }

/-- `VecBit::push` of `src/vec.rs`, after its capacity assert: if the vector
is empty or the tail cursor sits at the element edge, `do_unto_vec` pushes a
zero element onto the backing `Vec` (which holds the `elts` live elements
within the `buf.length` capacity, so the push writes slot `elts`); then the
tail grows by one bit (`incr_tail`) and the new last bit is written with
`set`. -/
def VecBit.push (w : Nat) (c : Nat → Nat) (v : VecBit) (b : Bool) : VecBit :=
  VecBit.setBitAt w c
    { buf :=
        if v.len = 0 ∨ v.tailCur w = w then
          v.buf.take (v.elts w) ++ 0 :: v.buf.drop (v.elts w + 1)
        else v.buf
      head := v.head
      len := v.len + 1 }
    v.len b

/-- `VecBit::push` including its leading assert: the source asserts
`len <= MAX_BITS` on the length before the push and panics (here: `none`)
when the assert fails. -/
def VecBit.pushChecked (maxBits w : Nat) (c : Nat → Nat) (v : VecBit)
    (b : Bool) : Option VecBit :=
  if v.len ≤ maxBits then some (v.push w c b) else none

/-- `VecBit::pop` of `src/vec.rs`: `None` on an empty vector; otherwise the
bit at `len - 1` is read, the tail shrinks by one bit (`decr_tail`), and the
bit is returned. -/
def VecBit.pop (w : Nat) (c : Nat → Nat) (v : VecBit) :
    Option Bool × VecBit :=
  if v.len = 0 then (none, v)
  else (some (v.getBit w c (v.len - 1)), { v with len := v.len - 1 })

/-- `VecBit::reserve` of `src/vec.rs`: asserts `len + additional <= MAX_BITS`
(panic modelled as `none`), then grows only the backing allocation, leaving
length, head, tail and the live element values unchanged (the extra
capacity is not part of the observable state modelled here). -/
def VecBit.reserve (maxBits : Nat) (v : VecBit) (additional : Nat) :
    Option VecBit :=
  if v.len + additional ≤ maxBits then some v else none

/-- `VecBit::set_len` of `src/vec.rs`: asserts the new length against
`MAX_BITS` and against the allocated capacity, then rewrites only the
pointer length. -/
def VecBit.setLen (maxBits w : Nat) (v : VecBit) (n : Nat) : Option VecBit :=
  if n ≤ maxBits ∧ n ≤ v.capacity w then some { v with len := n } else none

/-- `VecBit::truncate` of `src/vec.rs`: when the requested length is below
the current one, rewrite the pointer length; otherwise do nothing. No
backing element is touched. -/
def VecBit.truncate (v : VecBit) (n : Nat) : VecBit :=
  if n < v.len then { v with len := n } else v

/-- `VecBit::clear` of `src/vec.rs`: `set_len(0)`. -/
def VecBit.clear (maxBits w : Nat) (v : VecBit) : Option VecBit :=
  v.setLen maxBits w 0

/-- `PartialEq<VecBit<C, D>> for VecBit<A, B>` of `src/vec.rs`, which
delegates to the slice comparison; the two sides may differ in cursor
strategy AND in storage element width (the source impl is generic over both
type pairs, its doc example comparing a `u16` vector against a `u32`
vector). Modelled from the spec: `SliceBit::eq` (the `slice` module is
absent from the sources; the impl documentation in `src/vec.rs` shows the
comparison is by bit sequence, not raw memory) compares lengths and then
each bit in order, each side read through its own width and cursor. -/
def VecBit.beq (w₁ : Nat) (c₁ : Nat → Nat) (v₁ : VecBit) (w₂ : Nat)
    (c₂ : Nat → Nat) (v₂ : VecBit) : Bool :=
  v₁.len == v₂.len &&
    (List.range v₁.len).all fun i => v₁.getBit w₁ c₁ i == v₂.getBit w₂ c₂ i

/-! ### Arithmetic helper lemmas -/

theorem ceilDiv_lower (n w : Nat) (hw : 0 < w) : n ≤ w * ceilDiv n w := by
  unfold ceilDiv
  have h1 := Nat.div_add_mod (n + w - 1) w
  have h2 := Nat.mod_lt (n + w - 1) hw
  omega

theorem ceilDiv_upper (n w : Nat) (hw : 0 < w) (hn : 0 < n) :
    w * ceilDiv n w < n + w := by
  unfold ceilDiv
  have h1 := Nat.div_add_mod (n + w - 1) w
  omega

theorem ceilDiv_mul_self (w q : Nat) (hw : 0 < w) (hq : 0 < q) :
    ceilDiv (w * q) w = q := by
  have key : w * q + w - 1 = w * q + (w - 1) := by omega
  unfold ceilDiv
  rw [key, Nat.mul_add_div hw, Nat.div_eq_of_lt (by omega), Nat.add_zero]

theorem pred_mul_mod (w q : Nat) (hw : 0 < w) (hq : 0 < q) :
    (w * q - 1) % w = w - 1 := by
  have e1 : w * q = w * (q - 1) + w := by
    cases q with
    | zero => omega
    | succ k => simp [Nat.mul_succ]
  have key : w * q - 1 = w * (q - 1) + (w - 1) := by omega
  rw [key, Nat.mul_add_mod, Nat.mod_eq_of_lt (by omega)]

theorem pred_mul_div (w q : Nat) (hw : 0 < w) (hq : 0 < q) :
    (w * q - 1) / w = q - 1 := by
  have e1 : w * q = w * (q - 1) + w := by
    cases q with
    | zero => omega
    | succ k => simp [Nat.mul_succ]
  have key : w * q - 1 = w * (q - 1) + (w - 1) := by omega
  rw [key, Nat.mul_add_div hw, Nat.div_eq_of_lt (by omega), Nat.add_zero]

theorem ceilDiv_of_not_dvd (n w : Nat) (hw : 0 < w) (h : n % w ≠ 0) :
    ceilDiv n w = n / w + 1 := by
  have h1 := Nat.div_add_mod n w
  have h2 := Nat.mod_lt n hw
  have e1 : w * (n / w + 1) = w * (n / w) + w := by rw [Nat.mul_succ]
  have key : n + w - 1 = w * (n / w + 1) + (n % w - 1) := by omega
  unfold ceilDiv
  rw [key, Nat.mul_add_div hw,
    Nat.div_eq_of_lt (show n % w - 1 < w by omega), Nat.add_zero]

theorem pred_div_of_not_dvd (n w : Nat) (hw : 0 < w) (h : n % w ≠ 0) :
    (n - 1) / w = n / w := by
  have h1 := Nat.div_add_mod n w
  have h2 := Nat.mod_lt n hw
  have key : n - 1 = w * (n / w) + (n % w - 1) := by omega
  rw [key, Nat.mul_add_div hw,
    Nat.div_eq_of_lt (show n % w - 1 < w by omega), Nat.add_zero]

theorem mod_eq_zero_of_pred_mod (n w : Nat) (hw : 0 < w) (hn : 0 < n)
    (h : (n - 1) % w = w - 1) : n % w = 0 := by
  have h1 := Nat.div_add_mod (n - 1) w
  have key : n = w * ((n - 1) / w) + w := by omega
  rw [key, Nat.mul_add_mod, Nat.mod_self]

/-! ### Bitwise helper lemmas -/

theorem BitAccess.get_two_pow (v p : Nat) :
    BitAccess.get v (2 ^ p) = v.testBit p := by
  unfold BitAccess.get
  rw [Nat.and_two_pow]
  cases h : v.testBit p <;> simp [h, Nat.pos_iff_ne_zero, Nat.pow_eq_zero]

theorem testBit_notW (w m q : Nat) (hq : q < w) :
    (notW w m).testBit q = !(m.testBit q) := by
  unfold notW
  rw [Nat.testBit_xor, Nat.testBit_two_pow_sub_one]
  simp [hq]

theorem BitAccess.testBit_set_self (w v q : Nat) (b : Bool) (hq : q < w) :
    (BitAccess.set w v (2 ^ q) b).testBit q = b := by
  cases b with
  | true =>
      simp [BitAccess.set, BitAccess.set_bit, Nat.testBit_or,
        Nat.testBit_two_pow_self]
  | false =>
      simp [BitAccess.set, BitAccess.clear_bit, Nat.testBit_and,
        testBit_notW w (2 ^ q) q hq, Nat.testBit_two_pow_self]

theorem BitAccess.testBit_set_ne (w v q p : Nat) (b : Bool) (hp : p < w)
    (hne : p ≠ q) :
    (BitAccess.set w v (2 ^ q) b).testBit p = v.testBit p := by
  cases b with
  | true =>
      simp [BitAccess.set, BitAccess.set_bit, Nat.testBit_or,
        Nat.testBit_two_pow_of_ne (fun h => hne h.symm)]
  | false =>
      simp [BitAccess.set, BitAccess.clear_bit, Nat.testBit_and,
        testBit_notW w (2 ^ q) p hp,
        Nat.testBit_two_pow_of_ne (fun h => hne h.symm)]

/-! ### List helper lemmas -/

theorem listGetD_set_self (l : List Nat) (j a : Nat) (h : j < l.length) :
    (l.set j a).getD j 0 = a := by
  rw [List.getD_eq_getElem?_getD, List.getElem?_set_self h]
  rfl

theorem listGetD_set_ne (l : List Nat) (i j a : Nat) (h : i ≠ j) :
    (l.set i a).getD j 0 = l.getD j 0 := by
  rw [List.getD_eq_getElem?_getD, List.getElem?_set_ne h,
    ← List.getD_eq_getElem?_getD]

theorem listGrow_length (l : List Nat) (e : Nat) (he : e ≤ l.length) :
    e < (l.take e ++ 0 :: l.drop (e + 1)).length := by
  rw [List.length_append, List.length_take]
  simp only [List.length_cons]
  omega

theorem listGetD_grow_lt (l : List Nat) (e j : Nat) (he : e ≤ l.length)
    (hj : j < e) :
    (l.take e ++ 0 :: l.drop (e + 1)).getD j 0 = l.getD j 0 := by
  have hlen : (l.take e).length = e := by
    rw [List.length_take]
    omega
  rw [List.getD_eq_getElem?_getD, List.getElem?_append, hlen, if_pos hj,
    List.getElem?_take, if_pos hj, ← List.getD_eq_getElem?_getD]

theorem listGetD_grow_self (l : List Nat) (e : Nat) (he : e ≤ l.length) :
    (l.take e ++ 0 :: l.drop (e + 1)).getD e 0 = 0 := by
  have hlen : (l.take e).length = e := by
    rw [List.length_take]
    omega
  rw [List.getD_eq_getElem?_getD, List.getElem?_append, hlen,
    if_neg (by omega), Nat.sub_self, List.getElem?_cons_zero]
  rfl

/-! ### Claim theorems -/

/-- C1: for every supported element width `w`, start index `s` in `[0, w)`,
and bit count `len`, `span` returns no elements and reinterprets `s` as the
tail when `len = 0`; otherwise the element count is the ceiling of
`(s + len) / w` (characterized by the two bounds), the tail is
`(s + len - 1) % w + 1`, and the tail equals `w` exactly on an element
boundary. -/
theorem c1_span_spec (w s len : Nat)
    (hw : w = 8 ∨ w = 16 ∨ w = 32 ∨ w = 64) (hs : s < w) :
    (len = 0 → span w s len = (0, s)) ∧
    (0 < len →
      s + len ≤ w * (span w s len).1 ∧
      w * (span w s len).1 < s + len + w ∧
      ((s + len) % w = 0 → (span w s len).2 = w) ∧
      (span w s len).2 = (s + len - 1) % w + 1) := by
  have hw0 : 0 < w := by rcases hw with h | h | h | h <;> omega
  refine ⟨fun h => by simp [span, h], fun h => ?_⟩
  have hne : len ≠ 0 := by omega
  have hn : 0 < s + len := by omega
  have hs1 : (span w s len).1 = ceilDiv (s + len) w := by simp [span, hne]
  have hs2 : (span w s len).2 = (s + len - 1) % w + 1 := by simp [span, hne]
  refine ⟨?_, ?_, ?_, hs2⟩
  · rw [hs1]
    exact ceilDiv_lower _ _ hw0
  · rw [hs1]
    exact ceilDiv_upper _ _ hw0 hn
  · intro hmod
    obtain ⟨q, hq⟩ := Nat.dvd_of_mod_eq_zero hmod
    have hq0 : 0 < q := by
      rcases Nat.eq_zero_or_pos q with h0 | h0
      · rw [h0, Nat.mul_zero] at hq
        omega
      · exact h0
    rw [hs2, hq, pred_mul_mod w q hw0 hq0]
    omega

/-- Witness for C1 at width 8, start 3, length 13. -/
theorem c1_span_spec_witness :
    ((8:Nat) = 8 ∨ (8:Nat) = 16 ∨ (8:Nat) = 32 ∨ (8:Nat) = 64) ∧
    (3:Nat) < 8 ∧
    ((13 = 0 → span 8 3 13 = (0, 3)) ∧
      (0 < 13 →
        3 + 13 ≤ 8 * (span 8 3 13).1 ∧
        8 * (span 8 3 13).1 < 3 + 13 + 8 ∧
        ((3 + 13) % 8 = 0 → (span 8 3 13).2 = 8) ∧
        (span 8 3 13).2 = (3 + 13 - 1) % 8 + 1)) :=
  ⟨Or.inl rfl, by decide, c1_span_spec 8 3 13 (Or.inl rfl) (by decide)⟩

/-- C3, counterexample: a pointer touching exactly one element with
`head = 4 > 0` (so not fully occupying it) whose tail reaches the element
edge is classified `PartialHead`, not `Minor`, refuting the claim for the
condition `head > 0 OR tail < width`. -/
theorem c3_counterexample :
    (span 32 4 28).1 = 1 ∧ 0 < 4 ∧
    BitDomain.ofPtr 32 4 28 [0] = .PartialHead 4 0 [] ∧
    (BitDomain.ofPtr 32 4 28 [0]).is_minor = false := by decide

/-- C3 as amended: a pointer whose span touches exactly one element with
`head > 0` AND `tail < width` is always classified `Minor` — never `Major`
with an empty interior, and never `PartialHead` or `PartialTail`. -/
theorem c3_minor_tiebreak (w head len : Nat) (data : List Nat)
    (h1 : (span w head len).1 = 1) (hh : 0 < head)
    (ht : (span w head len).2 < w) :
    BitDomain.ofPtr w head len data =
      .Minor head (data.headD 0) (span w head len).2 ∧
    (BitDomain.ofPtr w head len data).is_minor = true ∧
    (BitDomain.ofPtr w head len data).is_major = false ∧
    (BitDomain.ofPtr w head len data).is_partial_head = false ∧
    (BitDomain.ofPtr w head len data).is_partial_tail = false := by
  have hh0 : head ≠ 0 := by omega
  have htw : (span w head len).2 ≠ w := by omega
  have hmain : BitDomain.ofPtr w head len data =
      .Minor head (data.headD 0) (span w head len).2 := by
    simp [BitDomain.ofPtr, h1, hh0, htw]
  rw [hmain]
  exact ⟨rfl, rfl, rfl, rfl, rfl⟩

/-- Witness for the amended C3 at width 8, head 1, length 6 (spec scenario
1: Minor with head 1 and tail 7). -/
theorem c3_minor_tiebreak_witness :
    (span 8 1 6).1 = 1 ∧ 0 < 1 ∧ (span 8 1 6).2 < 8 ∧
    (BitDomain.ofPtr 8 1 6 [42] =
        .Minor 1 (([42] : List Nat).headD 0) (span 8 1 6).2 ∧
      (BitDomain.ofPtr 8 1 6 [42]).is_minor = true ∧
      (BitDomain.ofPtr 8 1 6 [42]).is_major = false ∧
      (BitDomain.ofPtr 8 1 6 [42]).is_partial_head = false ∧
      (BitDomain.ofPtr 8 1 6 [42]).is_partial_tail = false) :=
  ⟨by decide, by decide, by decide,
    c3_minor_tiebreak 8 1 6 [42] (by decide) (by decide) (by decide)⟩

/-- C4: width 16, 2 elements, head 1, length 28 classifies as Major with
head 1, tail 13 and an empty interior; width 32, 1 element, head 4,
length 28 classifies as PartialHead with the tail reaching the element
edge. -/
theorem c4_concrete_scenarios :
    (span 16 1 28).1 = 2 ∧
    BitDomain.ofPtr 16 1 28 [5, 9] = .Major 1 5 [] 9 13 ∧
    (span 32 4 28).1 = 1 ∧
    BitDomain.ofPtr 32 4 28 [7] = .PartialHead 4 7 [] ∧
    (span 32 4 28).2 = 32 := by decide

/-- C5: for every cursor strategy whose masks stay inside the width and
every in-range position, setting the bit of a zero element makes `get`
true, clearing it makes `get` false, and inverting twice restores any
element value. -/
theorem c5_access_single_bit (w : Nat) (c : Nat → Nat) (p v : Nat)
    (hp : p < w) (hc : ∀ j, j < w → c j < w) :
    BitAccess.get (BitAccess.set_bit 0 (cursorMask c p)) (cursorMask c p)
      = true ∧
    BitAccess.get (BitAccess.clear_bit w v (cursorMask c p)) (cursorMask c p)
      = false ∧
    BitAccess.invert_bit (BitAccess.invert_bit v (cursorMask c p))
      (cursorMask c p) = v := by
  have hq : c p < w := hc p hp
  unfold cursorMask
  refine ⟨?_, ?_, ?_⟩
  · rw [BitAccess.get_two_pow]
    unfold BitAccess.set_bit
    rw [Nat.testBit_or, Nat.zero_testBit, Nat.testBit_two_pow_self]
    rfl
  · rw [BitAccess.get_two_pow]
    unfold BitAccess.clear_bit
    rw [Nat.testBit_and, testBit_notW w _ _ hq, Nat.testBit_two_pow_self]
    simp
  · unfold BitAccess.invert_bit
    exact Nat.xor_cancel_right _ _

/-- Witness for C5 at width 8, the LittleEndian cursor, position 3, element
value 5. -/
theorem c5_access_single_bit_witness :
    (3:Nat) < 8 ∧ (∀ j, j < 8 → (fun j => j) j < 8) ∧
    (BitAccess.get (BitAccess.set_bit 0 (cursorMask (fun j => j) 3))
        (cursorMask (fun j => j) 3) = true ∧
      BitAccess.get (BitAccess.clear_bit 8 5 (cursorMask (fun j => j) 3))
        (cursorMask (fun j => j) 3) = false ∧
      BitAccess.invert_bit
        (BitAccess.invert_bit 5 (cursorMask (fun j => j) 3))
        (cursorMask (fun j => j) 3) = 5) :=
  ⟨by decide, by decide,
    c5_access_single_bit 8 (fun j => j) 3 5 (by decide) (by decide)⟩

/-- C6, counterexample: `clear_bits` ANDs the element with the mask itself,
so at element 1 and mask 1 it stores 1, not the claimed `v AND NOT mask`
which is 0. -/
theorem c6_counterexample :
    BitAccess.clear_bits 1 1 = 1 ∧ 1 &&& notW 8 1 = 0 ∧
    BitAccess.clear_bits 1 1 ≠ 1 &&& notW 8 1 := by decide

/-- C6 as amended: `set_bits(m)` stores `v OR m` (bits set in `m` forced to
1, the rest preserved), while `clear_bits(m)` stores `v AND m` (bits clear
in `m` forced to 0, bits set in `m` preserved). -/
theorem c6_masked_writes (v m j : Nat) :
    BitAccess.set_bits v m = v ||| m ∧
    BitAccess.clear_bits v m = v &&& m ∧
    (m.testBit j = true →
      (BitAccess.set_bits v m).testBit j = true ∧
      (BitAccess.clear_bits v m).testBit j = v.testBit j) ∧
    (m.testBit j = false →
      (BitAccess.set_bits v m).testBit j = v.testBit j ∧
      (BitAccess.clear_bits v m).testBit j = false) := by
  refine ⟨rfl, rfl, fun h => ⟨?_, ?_⟩, fun h => ⟨?_, ?_⟩⟩ <;>
    simp [BitAccess.set_bits, BitAccess.clear_bits, Nat.testBit_or,
      Nat.testBit_and, h]

/-- Witness for the amended C6 at element 6, mask 3, bit position 1. -/
theorem c6_masked_writes_witness :
    (3:Nat).testBit 1 = true ∧
    ((BitAccess.set_bits 6 3).testBit 1 = true ∧
      (BitAccess.clear_bits 6 3).testBit 1 = (6:Nat).testBit 1) :=
  ⟨by decide, (c6_masked_writes 6 3 1).2.2.1 (by decide)⟩

/-- C8: the guard of `push` checks the old length against the limit, so a
push on a vector whose length already equals `MAX_BITS` passes the assert
and grows the vector one bit past the limit, while `reserve` correctly
rejects the same overshoot; here with limit 4, width 8, a full one-element
vector. -/
theorem c8_push_guard_off_by_one :
    VecBit.pushChecked 4 8 (fun j => j) ⟨[0], 0, 4⟩ true
      = some (VecBit.push 8 (fun j => j) ⟨[0], 0, 4⟩ true) ∧
    (VecBit.push 8 (fun j => j) ⟨[0], 0, 4⟩ true).len = 5 ∧
    ¬ (5 ≤ 4) ∧
    VecBit.reserve 4 ⟨[0], 0, 4⟩ 1 = none := by decide

/-- C9: vector comparison is semantic, true exactly when the lengths agree
and every bit agrees, whatever the cursor strategies and the storage
element widths of the two sides. -/
theorem c9_semantic_eq (w₁ w₂ : Nat) (c₁ c₂ : Nat → Nat) (v₁ v₂ : VecBit) :
    VecBit.beq w₁ c₁ v₁ w₂ c₂ v₂ = true ↔
      (v₁.len = v₂.len ∧
        ∀ i, i < v₁.len → v₁.getBit w₁ c₁ i = v₂.getBit w₂ c₂ i) := by
  unfold VecBit.beq
  rw [Bool.and_eq_true, beq_iff_eq, List.all_eq_true]
  constructor
  · rintro ⟨h1, h2⟩
    exact ⟨h1, fun i hi => by simpa using h2 i (List.mem_range.mpr hi)⟩
  · rintro ⟨h1, h2⟩
    refine ⟨h1, fun i hi => ?_⟩
    simpa using h2 i (List.mem_range.mp hi)

/-- Witness for C9, across storage element widths as in the source impl
documentation: a LittleEndian 16-bit vector holding raw 2 and a BigEndian
32-bit vector holding raw 2 to the 30th carry the same four bits 0,1,0,1
and compare equal although their backing memory differs. -/
theorem c9_semantic_eq_witness :
    VecBit.beq 16 (fun j => j) ⟨[2], 0, 4⟩ 32 (fun j => 31 - j)
      ⟨[1073741824], 0, 4⟩ = true ∧
    (⟨[2], 0, 4⟩ : VecBit).buf ≠ (⟨[1073741824], 0, 4⟩ : VecBit).buf :=
  ⟨(c9_semantic_eq 16 32 (fun j => j) (fun j => 31 - j) ⟨[2], 0, 4⟩
      ⟨[1073741824], 0, 4⟩).mpr ⟨rfl, by decide⟩,
    by decide⟩

/-- C10: `truncate` and `clear` rewrite only the pointer length: the backing
elements, the head and the capacity are untouched, `truncate` to a length
at or above the current one is the identity, the truncated length is the
minimum of the two, and `clear` always succeeds with length 0. -/
theorem c10_truncate_clear (maxBits w n : Nat) (v : VecBit) :
    (v.truncate n).buf = v.buf ∧
    (v.truncate n).head = v.head ∧
    (v.truncate n).capacity w = v.capacity w ∧
    (v.truncate n).len = min n v.len ∧
    (v.len ≤ n → v.truncate n = v) ∧
    v.clear maxBits w = some { v with len := 0 } := by
  have hclear : v.clear maxBits w = some { v with len := 0 } := by
    unfold VecBit.clear VecBit.setLen
    rw [if_pos ⟨Nat.zero_le _, Nat.zero_le _⟩]
  refine ⟨?_, ?_, ?_, ?_, ?_, hclear⟩
  · unfold VecBit.truncate
    split <;> rfl
  · unfold VecBit.truncate
    split <;> rfl
  · unfold VecBit.truncate VecBit.capacity
    split <;> rfl
  · unfold VecBit.truncate
    split
    · next h =>
        show n = min n v.len
        omega
    · next h =>
        show v.len = min n v.len
        omega
  · intro h
    unfold VecBit.truncate
    rw [if_neg (by omega)]

/-- Witness for C10 at a three-bit byte vector, truncated to 5 (a no-op). -/
theorem c10_truncate_clear_witness :
    (3:Nat) ≤ 5 ∧ (⟨[7], 0, 3⟩ : VecBit).truncate 5 = ⟨[7], 0, 3⟩ :=
  ⟨by decide, (c10_truncate_clear 10 8 5 ⟨[7], 0, 3⟩).2.2.2.2.1 (by decide)⟩

/-- Dropping the last element and reappending it rebuilds a nonempty list. -/
theorem listDropLast_append_getLastD (l : List Nat) (h : l ≠ []) :
    l.dropLast ++ [l.getLastD 0] = l := by
  have h1 : l.getLastD 0 = l.getLast h := by
    rw [List.getLastD_eq_getLast?, List.getLast?_eq_getLast l h]
    rfl
  rw [h1, List.dropLast_append_getLast h]

/-- C2: for every valid pointer (element-level view of exactly the spanned
length), the classification lands in exactly one variant, the elements
carried by the variant parts reconstruct the element-level view in order,
and the head and tail indices carried by the variant equal the pointer
head and the span tail. -/
theorem c2_domain_exhaustive (w head len : Nat) (data : List Nat)
    (hw : 0 < w) (hd : data.length = (span w head len).1) :
    (BitDomain.ofPtr w head len data).variantCount = 1 ∧
    (BitDomain.ofPtr w head len data).elems = data ∧
    (∀ h, (BitDomain.ofPtr w head len data).headIdx = some h → h = head) ∧
    (∀ t, (BitDomain.ofPtr w head len data).tailIdx = some t →
      t = (span w head len).2) := by
  unfold BitDomain.ofPtr
  split_ifs with h1 h2 h3 h4 h5
  · -- Empty
    have hnil : data = [] := List.length_eq_zero.mp (hd.trans h1)
    subst hnil
    refine ⟨rfl, rfl, ?_, ?_⟩
    · intro x hx
      exact nomatch hx
    · intro x hx
      exact nomatch hx
  · -- Spanning
    refine ⟨rfl, rfl, ?_, ?_⟩
    · intro x hx
      exact nomatch hx
    · intro x hx
      exact nomatch hx
  · -- PartialHead
    cases data with
    | nil =>
        exact absurd hd.symm (by simpa using h1)
    | cons a l =>
        refine ⟨rfl, rfl, ?_, ?_⟩
        · intro x hx
          exact (Option.some.inj hx).symm
        · intro x hx
          exact nomatch hx
  · -- PartialTail
    have hne : data ≠ [] := by
      intro hnil
      subst hnil
      exact h1 hd.symm
    refine ⟨rfl, listDropLast_append_getLastD data hne, ?_, ?_⟩
    · intro x hx
      exact nomatch hx
    · intro x hx
      exact (Option.some.inj hx).symm
  · -- Minor
    have hlen : data.length = 1 := hd.trans h5
    cases data with
    | nil => simp at hlen
    | cons a l =>
        cases l with
        | nil =>
            refine ⟨rfl, rfl, ?_, ?_⟩
            · intro x hx
              exact (Option.some.inj hx).symm
            · intro x hx
              exact (Option.some.inj hx).symm
        | cons b l2 => simp at hlen
  · -- Major
    have hlen : 2 ≤ data.length := by
      rw [hd]
      omega
    cases data with
    | nil => simp at hlen
    | cons a l =>
        have hlne : l ≠ [] := by
          intro h0
          subst h0
          simp at hlen
        refine ⟨rfl, ?_, ?_, ?_⟩
        · show a :: (l.dropLast ++ [l.getLastD 0]) = a :: l
          rw [listDropLast_append_getLastD l hlne]
        · intro x hx
          exact (Option.some.inj hx).symm
        · intro x hx
          exact (Option.some.inj hx).symm

/-- Witness for C2 at width 8, head 1, length 6, a one-element view. -/
theorem c2_domain_exhaustive_witness :
    (0:Nat) < 8 ∧ ([42] : List Nat).length = (span 8 1 6).1 ∧
    ((BitDomain.ofPtr 8 1 6 [42]).variantCount = 1 ∧
      (BitDomain.ofPtr 8 1 6 [42]).elems = [42] ∧
      (∀ h, (BitDomain.ofPtr 8 1 6 [42]).headIdx = some h → h = 1) ∧
      (∀ t, (BitDomain.ofPtr 8 1 6 [42]).tailIdx = some t →
        t = (span 8 1 6).2)) :=
  ⟨by decide, by decide, c2_domain_exhaustive 8 1 6 [42] (by decide) (by decide)⟩

/-- First component of `span` for a positive length. -/
theorem span_fst_pos (w s len : Nat) (h : len ≠ 0) :
    (span w s len).1 = ceilDiv (s + len) w := by simp [span, h]

/-- Second component of `span` for a positive length. -/
theorem span_snd_pos (w s len : Nat) (h : len ≠ 0) :
    (span w s len).2 = (s + len - 1) % w + 1 := by simp [span, h]

/-- The bit written by `push` at the old length reads back. -/
theorem push_getBit_last (w : Nat) (c : Nat → Nat) (v : VecBit) (b : Bool)
    (hw : 0 < w) (hhead : v.head < w)
    (hcov : v.head + v.len ≤ v.buf.length * w)
    (hc : ∀ j, j < w → c j < w) :
    (v.push w c b).getBit w c v.len = b := by
  have hcr : c ((v.head + v.len) % w) < w := hc _ (Nat.mod_lt _ hw)
  simp only [VecBit.push, VecBit.setBitAt, VecBit.getBit, VecBit.elts,
    VecBit.tailCur, cursorMask]
  rw [BitAccess.get_two_pow]
  by_cases h0 : v.len = 0
  · rw [if_pos (Or.inl h0)]
    have hsp1 : (span w v.head v.len).1 = 0 := by simp [span, h0]
    have hdiv : (v.head + v.len) / w = 0 := by
      rw [h0, Nat.add_zero]
      exact Nat.div_eq_of_lt hhead
    rw [hsp1, hdiv]
    rw [listGetD_set_self _ _ _ (listGrow_length v.buf 0 (Nat.zero_le _))]
    exact BitAccess.testBit_set_self w _ _ b hcr
  · by_cases hmod : (v.head + v.len) % w = 0
    · obtain ⟨q, hq⟩ := Nat.dvd_of_mod_eq_zero hmod
      have hq0 : 0 < q := by
        rcases Nat.eq_zero_or_pos q with hz | hz
        · rw [hz, Nat.mul_zero] at hq
          omega
        · exact hz
      have htail : (span w v.head v.len).2 = w := by
        rw [span_snd_pos w v.head v.len h0, hq, pred_mul_mod w q hw hq0]
        omega
      have hsp1 : (span w v.head v.len).1 = q := by
        rw [span_fst_pos w v.head v.len h0, hq, ceilDiv_mul_self w q hw hq0]
      have hdiv : (v.head + v.len) / w = q := by
        rw [hq, Nat.mul_div_cancel_left q hw]
      have he : q ≤ v.buf.length := by
        have h1 : q * w ≤ v.buf.length * w := by
          rw [Nat.mul_comm]
          omega
        exact Nat.le_of_mul_le_mul_right h1 hw
      rw [if_pos (Or.inr htail), hsp1, hdiv]
      rw [listGetD_set_self _ _ _ (listGrow_length v.buf q he)]
      exact BitAccess.testBit_set_self w _ _ b hcr
    · have htail : (span w v.head v.len).2 ≠ w := by
        rw [span_snd_pos w v.head v.len h0]
        intro hcontra
        have h1 : (v.head + v.len - 1) % w = w - 1 := by omega
        exact hmod (mod_eq_zero_of_pred_mod _ _ hw (by omega) h1)
      rw [if_neg (fun hcase => by
        rcases hcase with hcase | hcase
        · exact h0 hcase
        · exact htail hcase)]
      have hlt : v.head + v.len < v.buf.length * w := by
        have hne : v.head + v.len ≠ v.buf.length * w := by
          intro heq
          rw [heq] at hmod
          exact hmod (Nat.mul_mod_left _ _)
        omega
      have hJ : (v.head + v.len) / w < v.buf.length :=
        (Nat.div_lt_iff_lt_mul hw).mpr hlt
      rw [listGetD_set_self _ _ _ hJ]
      exact BitAccess.testBit_set_self w _ _ b hcr

/-- The bits below the old length are untouched by `push`. -/
theorem push_getBit_frame (w : Nat) (c : Nat → Nat) (v : VecBit) (b : Bool)
    (hw : 0 < w) (hhead : v.head < w)
    (hcov : v.head + v.len ≤ v.buf.length * w)
    (hc : ∀ j, j < w → c j < w)
    (hinj : ∀ j, j < w → ∀ k, k < w → c j = c k → j = k)
    (i : Nat) (hi : i < v.len) :
    (v.push w c b).getBit w c i = v.getBit w c i := by
  have h0 : v.len ≠ 0 := by omega
  have hk : v.head + i < v.head + v.len := by omega
  simp only [VecBit.push, VecBit.setBitAt, VecBit.getBit, VecBit.elts,
    VecBit.tailCur, cursorMask]
  rw [BitAccess.get_two_pow, BitAccess.get_two_pow]
  by_cases hmod : (v.head + v.len) % w = 0
  · obtain ⟨q, hq⟩ := Nat.dvd_of_mod_eq_zero hmod
    have hq0 : 0 < q := by
      rcases Nat.eq_zero_or_pos q with hz | hz
      · rw [hz, Nat.mul_zero] at hq
        omega
      · exact hz
    have htail : (span w v.head v.len).2 = w := by
      rw [span_snd_pos w v.head v.len h0, hq, pred_mul_mod w q hw hq0]
      omega
    have hsp1 : (span w v.head v.len).1 = q := by
      rw [span_fst_pos w v.head v.len h0, hq, ceilDiv_mul_self w q hw hq0]
    have hdiv : (v.head + v.len) / w = q := by
      rw [hq, Nat.mul_div_cancel_left q hw]
    have he : q ≤ v.buf.length := by
      have h1 : q * w ≤ v.buf.length * w := by
        rw [Nat.mul_comm]
        omega
      exact Nat.le_of_mul_le_mul_right h1 hw
    have hJle : (v.head + i) / w ≤ q - 1 := by
      have h2 : (v.head + i) / w ≤ (v.head + v.len - 1) / w :=
        Nat.div_le_div_right (by omega)
      rw [hq, pred_mul_div w q hw hq0] at h2
      exact h2
    rw [if_pos (Or.inr htail), hsp1, hdiv]
    rw [listGetD_set_ne _ _ _ _ (show q ≠ (v.head + i) / w by omega)]
    rw [listGetD_grow_lt v.buf q _ he (by omega)]
  · have htail : (span w v.head v.len).2 ≠ w := by
      rw [span_snd_pos w v.head v.len h0]
      intro hcontra
      have h1 : (v.head + v.len - 1) % w = w - 1 := by omega
      exact hmod (mod_eq_zero_of_pred_mod _ _ hw (by omega) h1)
    rw [if_neg (fun hcase => by
      rcases hcase with hcase | hcase
      · exact h0 hcase
      · exact htail hcase)]
    have hlt : v.head + v.len < v.buf.length * w := by
      have hne : v.head + v.len ≠ v.buf.length * w := by
        intro heq
        rw [heq] at hmod
        exact hmod (Nat.mul_mod_left _ _)
      omega
    have hJ : (v.head + v.len) / w < v.buf.length :=
      (Nat.div_lt_iff_lt_mul hw).mpr hlt
    by_cases hJJ : (v.head + i) / w = (v.head + v.len) / w
    · rw [hJJ, listGetD_set_self _ _ _ hJ]
      have hRne : (v.head + i) % w ≠ (v.head + v.len) % w := by
        intro heq
        have h1 := Nat.div_add_mod (v.head + i) w
        have h2 := Nat.div_add_mod (v.head + v.len) w
        rw [hJJ] at h1
        omega
      have hcne : c ((v.head + i) % w) ≠ c ((v.head + v.len) % w) := by
        intro heq
        exact hRne (hinj _ (Nat.mod_lt _ hw) _ (Nat.mod_lt _ hw) heq)
      rw [BitAccess.testBit_set_ne w _ _ _ b (hc _ (Nat.mod_lt _ hw)) hcne]
    · rw [listGetD_set_ne _ _ _ _ (fun heq => hJJ heq.symm)]

/-- C7: under the vector invariants (head inside the first element, live
bits within the allocation, a cursor with in-range injective masks), `push`
grows the length by one, the new last bit reads back, every previously live
bit is unchanged; `pop` on an empty vector is `None` leaving the vector
unchanged, on a nonempty one it returns the last live bit and shrinks the
length by one. -/
theorem c7_push_pop (w : Nat) (c : Nat → Nat) (v : VecBit) (b : Bool)
    (hw : 0 < w) (hhead : v.head < w)
    (hcov : v.head + v.len ≤ v.buf.length * w)
    (hc : ∀ j, j < w → c j < w)
    (hinj : ∀ j, j < w → ∀ k, k < w → c j = c k → j = k) :
    (v.push w c b).len = v.len + 1 ∧
    (v.push w c b).getBit w c v.len = b ∧
    (∀ i, i < v.len → (v.push w c b).getBit w c i = v.getBit w c i) ∧
    (v.len = 0 → v.pop w c = (none, v)) ∧
    (0 < v.len →
      (v.pop w c).1 = some (v.getBit w c (v.len - 1)) ∧
      (v.pop w c).2.len = v.len - 1) := by
  refine ⟨rfl, push_getBit_last w c v b hw hhead hcov hc,
    fun i hi => push_getBit_frame w c v b hw hhead hcov hc hinj i hi,
    fun h0 => by simp [VecBit.pop, h0], fun h0 => ?_⟩
  unfold VecBit.pop
  rw [if_neg (by omega)]
  exact ⟨rfl, rfl⟩

/-- Witness for C7 on a two-bit byte vector with the LittleEndian cursor. -/
theorem c7_push_pop_witness :
    (0:Nat) < 8 ∧ (0:Nat) < 8 ∧ (0:Nat) + 2 ≤ 1 * 8 ∧
    (∀ j, j < 8 → (fun j => j) j < 8) ∧
    (∀ j, j < 8 → ∀ k, k < 8 → (fun j => j) j = (fun j => j) k → j = k) ∧
    ((VecBit.push 8 (fun j => j) ⟨[3], 0, 2⟩ true).len = 3 ∧
      (VecBit.push 8 (fun j => j) ⟨[3], 0, 2⟩ true).getBit 8 (fun j => j) 2
        = true ∧
      (∀ i, i < 2 →
        (VecBit.push 8 (fun j => j) ⟨[3], 0, 2⟩ true).getBit 8 (fun j => j) i
          = (⟨[3], 0, 2⟩ : VecBit).getBit 8 (fun j => j) i) ∧
      ((2:Nat) = 0 →
        VecBit.pop 8 (fun j => j) ⟨[3], 0, 2⟩ = (none, ⟨[3], 0, 2⟩)) ∧
      (0 < 2 →
        (VecBit.pop 8 (fun j => j) ⟨[3], 0, 2⟩).1
            = some ((⟨[3], 0, 2⟩ : VecBit).getBit 8 (fun j => j) 1) ∧
        (VecBit.pop 8 (fun j => j) ⟨[3], 0, 2⟩).2.len = 1)) :=
  ⟨by decide, by decide, by decide, by decide, by decide,
    c7_push_pop 8 (fun j => j) ⟨[3], 0, 2⟩ true (by decide) (by decide)
      (by decide) (by decide) (by decide)⟩
